import Mathlib

set_option maxHeartbeats 1000000
set_option autoImplicit false

/-!
Shallow embedding of the schema inference engine of the repository
sequelize-model-from-json-array: the recursive model generator in
src/generateModel.js together with the association assembly done by the
driver index.js.  JavaScript values are modelled by the inductive type
Json below.  Host observations on strings (whether new Date(value) is a
valid date and whether parseInt(value, 10) is a number) are recorded as
boolean fields of JsStr, since the source consults strings only through
those observations and through their length.  The DataTypes string
constants of the source are modelled by the enumeration DataType; the
source spells the MAX string type in two different ways (a single-quoted
spelling returned by inferDataType, and a double-quoted spelling stored
in the specialTypes list), and since those are distinct JavaScript
strings they are modelled by the two distinct constructors
stringMaxSingle and stringMaxDouble.
-/

/-- Observations the source makes on a JavaScript string: value.length,
whether new Date(value).getTime() is not NaN, and whether
parseInt(value, 10) is not NaN.  The latter two are host functions and
are modelled as fields of the value. -/
structure JsStr where
  length : Nat
  parsesAsDate : Bool
  parsesAsInt : Bool
  deriving DecidableEq, Repr

/-- JSON-compatible JavaScript values, together with undefined. -/
inductive Json where
  | null
  | undef
  | boolean (b : Bool)
  | number (q : Rat)
  | str (s : JsStr)
  | arr (elems : List Json)
  | obj (fields : List (String × Json))

/-- The DataTypes constants appearing in src/generateModel.js.  The
constructor stringMaxSingle stands for the single-quoted MAX string
constant returned by inferDataType (lines 183 and 194), stringMaxDouble
for the double-quoted MAX string constant that is the sole element of
specialTypes (line 146); in JavaScript these are different strings.
The constructor unknown stands for the placeholder "???". -/
inductive DataType where
  | boolean
  | integer
  | float
  | date
  | stringMaxSingle
  | stringMaxDouble
  | string
  | nested
  | unknown
  deriving DecidableEq, Repr

/-- Association cardinalities, the strings "1:1" and "1:n" in the source. -/
inductive Relation where
  | oneToOne
  | oneToN
  deriving DecidableEq, Repr

/-- One entry of the body object built by generateSequelizeModel:
a type together with the original (raw) key, stored as the field
property. -/
structure FieldInfo where
  type : DataType
  field : String
  deriving DecidableEq, Repr

/-- One entry of the associatedModels accumulator: the camel-cased name,
the relation fixed at creation time, and the accumulated example batch. -/
structure AssocModel where
  name : String
  relation : Relation
  examples : List Json

/-- The object returned by generateSequelizeModel for one job: the model
name, the flat body that is rendered into the model file, and the two
association lists (Object.values filtered by relation). -/
structure ModelResult where
  model : String
  body : List (String × FieldInfo)
  oneToN : List AssocModel
  oneToOne : List AssocModel

abbrev Body := List (String × FieldInfo)
abbrev Ams := List (String × AssocModel)

/-- First-match lookup in a string-keyed association list, the way a
JavaScript property read body[key] behaves on own properties (the
prototype chain is not modelled; no key of interest here collides with
inherited property names). -/
def lookupKV {α : Type} : List (String × α) → String → Option α
  | [], _ => none
  | kv :: rest, k => if kv.1 = k then some kv.2 else lookupKV rest k

/-- Replace the value stored under an existing key, keeping its position. -/
def updateKV {α : Type} (l : List (String × α)) (k : String) (v : α) :
    List (String × α) :=
  l.map (fun kv => if kv.1 = k then (k, v) else kv)

/-- JavaScript property assignment obj[k] = v on a string-keyed object:
overwrite in place when the key exists, append otherwise. -/
def setKV {α : Type} (l : List (String × α)) (k : String) (v : α) :
    List (String × α) :=
  match lookupKV l k with
  | some _ => updateKV l k v
  | none => l ++ [(k, v)]

/-- Modelled from the spec: the utilities module (required as
./utilities by src/generateModel.js) is not among the given sources.
The spec says a number is an Integer when it has no fractional
component. -/
def isInt (q : Rat) : Bool := decide (q.den = 1)

/-- Splits a character list at underscore, hyphen and space. -/
def splitSep : List Char → List (List Char)
  | [] => [[]]
  | c :: cs =>
    if c = '_' ∨ c = '-' ∨ c = ' ' then
      [] :: splitSep cs
    else
      match splitSep cs with
      | [] => [[c]]
      | w :: ws => (c :: w) :: ws

/-- Lower-cases the first character of a word. -/
def lowerFirstL : List Char → List Char
  | [] => []
  | c :: cs => c.toLower :: cs

/-- Upper-cases the first character of a word. -/
def upperFirstL : List Char → List Char
  | [] => []
  | c :: cs => c.toUpper :: cs

/-- Modelled from the spec: the utilities module providing toCamelCase is
not among the given sources.  The spec describes canonicalization as
normalizing a raw key into a consistent camel-cased identifier; keys are
split at separators, the first word starts lower-case and every further
word starts upper-case. -/
def toCamelCase (s : String) : String :=
  match (splitSep s.toList).filter (fun w => !w.isEmpty) with
  | [] => ""
  | w :: ws => String.mk (lowerFirstL w ++ (ws.map upperFirstL).flatten)

/-- JavaScript truthiness of the modelled values (NaN does not occur in
JSON data and is not modelled). -/
def truthy : Json → Bool
  | .null => false
  | .undef => false
  | .boolean b => b
  | .number q => !(decide (q = 0))
  | .str s => !(decide (s.length = 0))
  | .arr _ => true
  | .obj _ => true

/-- Whether typeof value yields the string object (true for null,
arrays and plain objects). -/
def typeofIsObject : Json → Bool
  | .null => true
  | .arr _ => true
  | .obj _ => true
  | _ => false

/-- The guard value[0] && typeof value[0] !== "object" of line 193:
the array is non-empty and its first element is a truthy non-object. -/
def headTruthyNonObject : List Json → Bool
  | [] => false
  | v :: _ => truthy v && !typeofIsObject v

/-- The specialTypes list of line 146.  Its sole element is the
double-quoted MAX spelling, which differs from the single-quoted MAX
spelling produced by inferDataType. -/
def specialTypes : List DataType := [DataType.stringMaxDouble]

/-- Registration of an associated model (lines 198 to 210): create the
entry with the given relation if the camel-cased key is absent, then
append the new examples to its batch. -/
def registerAssoc (ams : Ams) (ck : String) (rel : Relation)
    (newExs : List Json) : Ams :=
  match lookupKV ams ck with
  | some m => updateKV ams ck { m with examples := m.examples ++ newExs }
  | none => ams ++ [(ck, ⟨ck, rel, newExs⟩)]

/-- The classifier inferDataType of src/generateModel.js, lines 155 to
216.  It returns the inferred type (none for the JavaScript null
result) together with the updated associatedModels accumulator that the
source mutates in place. -/
def inferDataType (value : Json) (key : String) (ams : Ams) :
    Option DataType × Ams :=
  match value with
  | .null => (none, ams)
  | .boolean _ => (some DataType.boolean, ams)
  | .number q =>
    if isInt q then (some DataType.integer, ams)
    else (some DataType.float, ams)
  | .str s =>
    if s.parsesAsDate && !s.parsesAsInt then (some DataType.date, ams)
    else if 140 < s.length then (some DataType.stringMaxSingle, ams)
    else (some DataType.string, ams)
  | .arr elems =>
    if headTruthyNonObject elems then (some DataType.stringMaxSingle, ams)
    else
      (some DataType.nested,
        registerAssoc ams (toCamelCase key) Relation.oneToN elems)
  | .obj fields =>
    (some DataType.nested,
      registerAssoc ams (toCamelCase key) Relation.oneToOne
        [Json.obj fields])
  | .undef => (none, ams)

/-- One iteration of the inner forEach of generateSequelizeModel
(lines 223 to 242): the special-type guard, classification, and the
body update with inferredType || previous || the placeholder. -/
def step (st : Body × Ams) (kv : String × Json) : Body × Ams :=
  let ck := toCamelCase kv.1
  match lookupKV st.1 ck with
  | some fi =>
    if decide (fi.type ∈ specialTypes) then st
    else
      let r := inferDataType kv.2 kv.1 st.2
      (setKV st.1 ck ⟨r.1.getD fi.type, kv.1⟩, r.2)
  | none =>
    let r := inferDataType kv.2 kv.1 st.2
    (setKV st.1 ck ⟨r.1.getD DataType.unknown, kv.1⟩, r.2)

/-- Folding every key and value pair of every example record, in order,
through step, starting from the empty body and the empty accumulator. -/
def processEntries (entries : List (String × Json)) : Body × Ams :=
  entries.foldl step ([], [])

/-- Indexed entries, modelling Object.entries on an array value. -/
def enumEntries : Nat → List Json → List (String × Json)
  | _, [] => []
  | i, v :: rest => (toString i, v) :: enumEntries (i + 1) rest

/-- Object.entries of the source, as used on each example record.  It
throws on null and undefined (modelled as none), yields the own entries
of an object, indexed entries of an array, per-character entries of a
string (each character is a one-character string that is neither a date
nor an integer for the classifier), and no entries for the remaining
primitives. -/
def jsEntries : Json → Option (List (String × Json))
  | .null => none
  | .undef => none
  | .boolean _ => some []
  | .number _ => some []
  | .str s =>
    some (enumEntries 0 (List.replicate s.length (Json.str ⟨1, false, false⟩)))
  | .arr elems => some (enumEntries 0 elems)
  | .obj fields => some fields

/-- Collects a list of optional values into an optional list, failing on
the first none, the way the sequential forEach of the source propagates
a thrown exception. -/
def allSome {α : Type} : List (Option α) → Option (List α)
  | [] => some []
  | none :: _ => none
  | some a :: rest => (allSome rest).map (fun l => a :: l)

/-- The recursive model generator generateSequelizeModel of
src/generateModel.js (lines 218 to 292), with an explicit fuel
parameter bounding the recursion depth; the source recurses without any
guard.  File writing and template rendering are omitted: the result
keeps the flat body (the content of the rendered model) together with
the returned model name and association lists.  A none result models a
thrown exception (an example record on which Object.entries throws). -/
def generateSequelizeModel : Nat → String → List Json → Option (List ModelResult)
  | 0, _, _ => none
  | fuel + 1, modelName, examples =>
    match allSome (examples.map jsEntries) with
    | none => none
    | some entss =>
      let st := processEntries entss.flatten
      match allSome (st.2.map (fun km =>
          generateSequelizeModel fuel (toCamelCase km.1) km.2.examples)) with
      | none => none
      | some children =>
        some ({ model := toCamelCase modelName,
                body := st.1.filter (fun kv => decide (kv.2.type ≠ DataType.nested)),
                oneToN := (st.2.map Prod.snd).filter
                  (fun m => decide (m.relation = Relation.oneToN)),
                oneToOne := (st.2.map Prod.snd).filter
                  (fun m => decide (m.relation = Relation.oneToOne)) }
              :: children.flatten)

/-- The driver index.js builds one associations object by assigning
every returned model under its name (associations[model.model] = model,
lines 109 to 123); a later assignment under an existing name silently
overwrites the earlier model. -/
def collectAssociations (models : List ModelResult) : List (String × ModelResult) :=
  models.foldl (fun acc m => setKV acc m.model m) []

/-- The cardinality the classifier would register for a value: a plain
object is a one-to-one association, an array that fails the truthy
scalar head guard is a one-to-many association, everything else
registers nothing. -/
def structuredTrigger : Json → Option Relation
  | .obj _ => some Relation.oneToOne
  | .arr elems =>
    if headTruthyNonObject elems then none else some Relation.oneToN
  | _ => none

/-- The examples the classifier appends for a value that registers an
association: the value itself for an object, the elements for an array. -/
def pushedExamples : Json → List Json
  | .arr elems => elems
  | .obj fields => [Json.obj fields]
  | _ => []

/-- The raw spelling of the last entry in the list whose key
canonicalizes to the given name, the reading of the spec side for the
last-spelling-wins claim. -/
def lastFieldSpelling : List (String × Json) → String → Option String
  | [], _ => none
  | kv :: rest, ck =>
    match lastFieldSpelling rest ck with
    | some s => some s
    | none => if toCamelCase kv.1 = ck then some kv.1 else none

/-- The last model in the list carrying the given name, the reading of
the spec side for the association assembly. -/
def lastModelNamed : List ModelResult → String → Option ModelResult
  | [], _ => none
  | m :: rest, k =>
    match lastModelNamed rest k with
    | some r => some r
    | none => if m.model = k then some m else none

mutual

/-- Nesting depth of a value: zero for scalars, one more than the
deepest component for arrays and objects. -/
def depthJ : Json → Nat
  | .null => 0
  | .undef => 0
  | .boolean _ => 0
  | .number _ => 0
  | .str _ => 0
  | .arr elems => 1 + depthList elems
  | .obj fields => 1 + depthPairs fields

def depthList : List Json → Nat
  | [] => 0
  | e :: es => max (depthJ e) (depthList es)

def depthPairs : List (String × Json) → Nat
  | [] => 0
  | kv :: rest => max (depthJ kv.2) (depthPairs rest)

end

/-! Helper lemmas about the key-value primitives. -/

theorem lookupKV_append_of_none {α : Type} {l l2 : List (String × α)} {k : String}
    (h : lookupKV l k = none) : lookupKV (l ++ l2) k = lookupKV l2 k := by
  induction l with
  | nil => simp
  | cons kv rest ih =>
    simp only [lookupKV] at h ⊢
    by_cases hk : kv.1 = k
    · simp [hk] at h
    · simp only [hk, if_false] at h ⊢
      exact ih h

theorem lookupKV_append_of_some {α : Type} {l l2 : List (String × α)} {k : String}
    {v : α} (h : lookupKV l k = some v) : lookupKV (l ++ l2) k = some v := by
  induction l with
  | nil => simp [lookupKV] at h
  | cons kv rest ih =>
    simp only [lookupKV] at h ⊢
    by_cases hk : kv.1 = k
    · simpa [hk] using h
    · simp only [hk, if_false] at h ⊢
      exact ih h

theorem mem_of_lookupKV {α : Type} {l : List (String × α)} {k : String} {v : α}
    (h : lookupKV l k = some v) : (k, v) ∈ l := by
  induction l with
  | nil => simp [lookupKV] at h
  | cons kv rest ih =>
    obtain ⟨k1, v1⟩ := kv
    simp only [lookupKV] at h
    by_cases hk : k1 = k
    · subst hk
      rw [if_pos rfl] at h
      obtain rfl : v1 = v := by injection h
      exact List.mem_cons_self _ _
    · rw [if_neg hk] at h
      exact List.mem_cons_of_mem _ (ih h)

theorem lookupKV_eq_none_of_not_mem {α : Type} {l : List (String × α)} {k : String}
    (h : k ∉ l.map Prod.fst) : lookupKV l k = none := by
  induction l with
  | nil => rfl
  | cons kv rest ih =>
    simp only [List.map_cons, List.mem_cons] at h
    push_neg at h
    simp only [lookupKV]
    rw [if_neg (fun hk => h.1 hk.symm)]
    exact ih h.2

theorem not_mem_of_lookupKV_none {α : Type} {l : List (String × α)} {k : String}
    (h : lookupKV l k = none) : k ∉ l.map Prod.fst := by
  induction l with
  | nil => simp
  | cons kv rest ih =>
    simp only [lookupKV] at h
    by_cases hk : kv.1 = k
    · simp [hk] at h
    · simp only [hk, if_false] at h
      simp only [List.map_cons, List.mem_cons]
      push_neg
      exact ⟨fun he => hk he.symm, ih h⟩

theorem lookupKV_updateKV_self {α : Type} {l : List (String × α)} {k : String}
    {v : α} : lookupKV (updateKV l k v) k = (lookupKV l k).map (fun _ => v) := by
  induction l with
  | nil => simp [updateKV, lookupKV]
  | cons kv rest ih =>
    simp only [updateKV, List.map_cons] at ih ⊢
    by_cases hk : kv.1 = k
    · simp [lookupKV, hk]
    · simp only [hk, if_false, lookupKV, if_neg hk]
      exact ih

theorem lookupKV_updateKV_ne {α : Type} {l : List (String × α)} {k k' : String}
    {v : α} (h : k' ≠ k) : lookupKV (updateKV l k v) k' = lookupKV l k' := by
  induction l with
  | nil => simp [updateKV, lookupKV]
  | cons kv rest ih =>
    obtain ⟨k0, v0⟩ := kv
    simp only [updateKV, List.map_cons] at ih ⊢
    by_cases hk : k0 = k
    · subst hk
      rw [if_pos rfl]
      simp only [lookupKV]
      rw [if_neg (fun he => h he.symm), if_neg (fun he => h he.symm)]
      exact ih
    · rw [if_neg (by simpa using hk)]
      simp only [lookupKV]
      by_cases hk' : k0 = k'
      · rw [if_pos (by simpa using hk'), if_pos (by simpa using hk')]
      · rw [if_neg (by simpa using hk'), if_neg (by simpa using hk')]
        exact ih

theorem lookupKV_setKV_self {α : Type} (l : List (String × α)) (k : String)
    (v : α) : lookupKV (setKV l k v) k = some v := by
  unfold setKV
  cases hl : lookupKV l k with
  | none =>
    rw [lookupKV_append_of_none hl]
    simp [lookupKV]
  | some m =>
    rw [lookupKV_updateKV_self, hl]
    rfl

theorem lookupKV_setKV_ne {α : Type} {l : List (String × α)} {k k' : String}
    {v : α} (h : k' ≠ k) : lookupKV (setKV l k v) k' = lookupKV l k' := by
  unfold setKV
  cases hl : lookupKV l k with
  | none =>
    cases hl' : lookupKV l k' with
    | none =>
      rw [lookupKV_append_of_none hl']
      simp only [lookupKV]
      rw [if_neg (fun he => h he.symm)]
    | some w => exact lookupKV_append_of_some hl'
  | some m => exact lookupKV_updateKV_ne h

theorem mem_setKV {α : Type} {l : List (String × α)} {k : String} {v : α}
    {kv : String × α} (h : kv ∈ setKV l k v) : kv ∈ l ∨ kv = (k, v) := by
  unfold setKV at h
  cases hl : lookupKV l k with
  | none =>
    rw [hl] at h
    rcases List.mem_append.mp h with h1 | h1
    · exact Or.inl h1
    · simp only [List.mem_singleton] at h1
      exact Or.inr h1
  | some m =>
    rw [hl] at h
    unfold updateKV at h
    rcases List.mem_map.mp h with ⟨a, ha, hfa⟩
    by_cases hk : a.1 = k
    · rw [if_pos hk] at hfa
      exact Or.inr hfa.symm
    · rw [if_neg hk] at hfa
      exact Or.inl (hfa ▸ ha)

theorem mem_registerAssoc {ams : Ams} {ck : String} {rel : Relation}
    {newExs : List Json} {km : String × AssocModel}
    (h : km ∈ registerAssoc ams ck rel newExs) :
    km ∈ ams ∨
    (∃ m, lookupKV ams ck = some m ∧
      km = (ck, { m with examples := m.examples ++ newExs })) ∨
    (lookupKV ams ck = none ∧ km = (ck, ⟨ck, rel, newExs⟩)) := by
  unfold registerAssoc at h
  cases hl : lookupKV ams ck with
  | none =>
    rw [hl] at h
    rcases List.mem_append.mp h with h1 | h1
    · exact Or.inl h1
    · simp only [List.mem_singleton] at h1
      exact Or.inr (Or.inr ⟨rfl, h1⟩)
  | some m =>
    rw [hl] at h
    unfold updateKV at h
    rcases List.mem_map.mp h with ⟨a, ha, hfa⟩
    by_cases hk : a.1 = ck
    · rw [if_pos hk] at hfa
      exact Or.inr (Or.inl ⟨m, rfl, hfa.symm⟩)
    · rw [if_neg hk] at hfa
      exact Or.inl (hfa ▸ ha)

/-! Helper lemmas about allSome and entry enumeration. -/

theorem mem_of_allSome {α : Type} :
    ∀ {opts : List (Option α)} {out : List α}, allSome opts = some out →
      ∀ {y : α}, y ∈ out → some y ∈ opts := by
  intro opts
  induction opts with
  | nil =>
    intro out h y hy
    simp only [allSome, Option.some.injEq] at h
    subst h
    cases hy
  | cons o rest ih =>
    intro out h y hy
    cases o with
    | none => simp [allSome] at h
    | some a =>
      simp only [allSome] at h
      cases hrest : allSome rest with
      | none => rw [hrest] at h; simp at h
      | some rest' =>
        rw [hrest] at h
        simp only [Option.map_some', Option.some.injEq] at h
        subst h
        rcases List.mem_cons.mp hy with h1 | h1
        · subst h1; exact List.mem_cons_self _ _
        · exact List.mem_cons_of_mem _ (ih hrest h1)

theorem allSome_isSome {α : Type} :
    ∀ {opts : List (Option α)}, (∀ o ∈ opts, o.isSome = true) →
      ∃ out, allSome opts = some out := by
  intro opts
  induction opts with
  | nil => exact fun _ => ⟨[], rfl⟩
  | cons o rest ih =>
    intro h
    cases o with
    | none =>
      have := h none (List.mem_cons_self _ _)
      simp at this
    | some a =>
      obtain ⟨out, hout⟩ := ih (fun o ho => h o (List.mem_cons_of_mem _ ho))
      exact ⟨a :: out, by simp [allSome, hout]⟩

theorem mem_enumEntries :
    ∀ {i : Nat} {l : List Json} {kv : String × Json},
      kv ∈ enumEntries i l → kv.2 ∈ l := by
  intro i l
  induction l generalizing i with
  | nil => intro kv h; cases h
  | cons v rest ih =>
    intro kv h
    rcases List.mem_cons.mp h with h1 | h1
    · subst h1; exact List.mem_cons_self _ _
    · exact List.mem_cons_of_mem _ (ih h1)

/-! Helper lemmas about the classifier. -/

theorem inferDataType_ams_of_trigger_none {v : Json} {k : String} {ams : Ams}
    (h : structuredTrigger v = none) : (inferDataType v k ams).2 = ams := by
  cases v with
  | arr elems =>
    simp only [structuredTrigger] at h
    by_cases hh : headTruthyNonObject elems
    · simp [inferDataType, hh]
    · simp [hh] at h
  | obj fields => simp [structuredTrigger] at h
  | number q =>
    by_cases hq : isInt q <;> simp [inferDataType, hq]
  | str s =>
    by_cases h1 : s.parsesAsDate && !s.parsesAsInt
    · simp [inferDataType, h1]
    · by_cases h2 : 140 < s.length <;> simp [inferDataType, h1, h2]
  | null => rfl
  | undef => rfl
  | boolean b => rfl

theorem inferDataType_ams_of_trigger_some {v : Json} {k : String} {ams : Ams}
    {r : Relation} (h : structuredTrigger v = some r) :
    (inferDataType v k ams).2 =
      registerAssoc ams (toCamelCase k) r (pushedExamples v) := by
  cases v with
  | arr elems =>
    simp only [structuredTrigger] at h
    cases hh : headTruthyNonObject elems with
    | true => simp [hh] at h
    | false =>
      simp only [hh, Bool.false_eq_true, if_false, Option.some.injEq] at h
      subst h
      simp [inferDataType, hh, pushedExamples]
  | obj fields =>
    simp only [structuredTrigger, Option.some.injEq] at h
    subst h
    simp [inferDataType, pushedExamples]
  | null => simp [structuredTrigger] at h
  | undef => simp [structuredTrigger] at h
  | boolean b => simp [structuredTrigger] at h
  | number q => simp [structuredTrigger] at h
  | str s => simp [structuredTrigger] at h

theorem inferDataType_fst_ne_double (v : Json) (k : String) (ams : Ams) :
    (inferDataType v k ams).1 ≠ some DataType.stringMaxDouble := by
  cases v with
  | null => simp [inferDataType]
  | undef => simp [inferDataType]
  | boolean b => simp [inferDataType]
  | number q => by_cases hq : isInt q <;> simp [inferDataType, hq]
  | str s =>
    by_cases h1 : s.parsesAsDate && !s.parsesAsInt
    · simp [inferDataType, h1]
    · by_cases h2 : 140 < s.length <;> simp [inferDataType, h1, h2]
  | arr elems =>
    by_cases hh : headTruthyNonObject elems <;> simp [inferDataType, hh]
  | obj fields => simp [inferDataType]

theorem registerAssoc_keeps_relation {ams : Ams} {ck ck' : String}
    {rel : Relation} {newExs : List Json} {r : Relation}
    (hinv : ∀ m, lookupKV ams ck' = some m → m.relation = r)
    (hnew : ck = ck' → rel = r) :
    ∀ m, lookupKV (registerAssoc ams ck rel newExs) ck' = some m →
      m.relation = r := by
  intro m hm
  unfold registerAssoc at hm
  cases hl : lookupKV ams ck with
  | none =>
    rw [hl] at hm
    by_cases hk : ck' = ck
    · subst hk
      rw [lookupKV_append_of_none hl] at hm
      simp only [lookupKV, if_pos] at hm
      obtain rfl : (⟨ck', rel, newExs⟩ : AssocModel) = m := by
        simpa using hm
      exact hnew rfl
    · cases hl' : lookupKV ams ck' with
      | none =>
        rw [lookupKV_append_of_none hl'] at hm
        simp only [lookupKV] at hm
        rw [if_neg (fun he => hk he.symm)] at hm
        simp [lookupKV] at hm
      | some m0 =>
        rw [lookupKV_append_of_some hl'] at hm
        obtain rfl : m0 = m := by injection hm
        exact hinv _ hl'
  | some m0 =>
    rw [hl] at hm
    by_cases hk : ck' = ck
    · subst hk
      rw [lookupKV_updateKV_self, hl] at hm
      simp only [Option.map_some', Option.some.injEq] at hm
      subst hm
      exact hinv m0 hl
    · rw [lookupKV_updateKV_ne hk] at hm
      exact hinv m hm


/-! Helper lemmas about one body update step. -/

theorem step_of_lookup_some {st : Body × Ams} {kv : String × Json} {fi : FieldInfo}
    (h : lookupKV st.1 (toCamelCase kv.1) = some fi)
    (hfi : fi.type ≠ DataType.stringMaxDouble) :
    step st kv =
      (setKV st.1 (toCamelCase kv.1)
        ⟨(inferDataType kv.2 kv.1 st.2).1.getD fi.type, kv.1⟩,
       (inferDataType kv.2 kv.1 st.2).2) := by
  have hg : decide (fi.type ∈ specialTypes) = false := by
    simp [specialTypes, hfi]
  simp only [step]
  rw [h]
  simp [hg]

theorem step_of_lookup_guard {st : Body × Ams} {kv : String × Json} {fi : FieldInfo}
    (h : lookupKV st.1 (toCamelCase kv.1) = some fi)
    (hfi : fi.type = DataType.stringMaxDouble) :
    step st kv = st := by
  simp only [step]
  rw [h]
  simp [specialTypes, hfi]

theorem step_of_lookup_none {st : Body × Ams} {kv : String × Json}
    (h : lookupKV st.1 (toCamelCase kv.1) = none) :
    step st kv =
      (setKV st.1 (toCamelCase kv.1)
        ⟨(inferDataType kv.2 kv.1 st.2).1.getD DataType.unknown, kv.1⟩,
       (inferDataType kv.2 kv.1 st.2).2) := by
  simp only [step]
  rw [h]

/-- No body entry ever carries the double-quoted MAX spelling: the
classifier never produces it, and neither does the placeholder. -/
def noDouble (b : Body) : Prop :=
  ∀ kv ∈ b, kv.2.type ≠ DataType.stringMaxDouble

theorem getD_infer_ne_double {o : Option DataType} {d : DataType}
    {v : Json} {k : String} {ams : Ams}
    (ho : (inferDataType v k ams).1 = o)
    (hd : d ≠ DataType.stringMaxDouble) :
    o.getD d ≠ DataType.stringMaxDouble := by
  cases o with
  | none => exact hd
  | some t =>
    intro ht
    simp only [Option.getD_some] at ht
    apply inferDataType_fst_ne_double v k ams
    rw [ho, ht]

theorem noDouble_step {st : Body × Ams} {kv : String × Json}
    (h : noDouble st.1) : noDouble (step st kv).1 := by
  cases hl : lookupKV st.1 (toCamelCase kv.1) with
  | some fi =>
    by_cases hfi : fi.type = DataType.stringMaxDouble
    · rw [step_of_lookup_guard hl hfi]
      exact h
    · rw [step_of_lookup_some hl hfi]
      intro kv2 hkv2
      rcases mem_setKV hkv2 with h1 | h1
      · exact h kv2 h1
      · subst h1
        exact getD_infer_ne_double rfl hfi
  | none =>
    rw [step_of_lookup_none hl]
    intro kv2 hkv2
    rcases mem_setKV hkv2 with h1 | h1
    · exact h kv2 h1
    · subst h1
      exact getD_infer_ne_double rfl (by intro hc; cases hc)

theorem noDouble_foldl :
    ∀ (L : List (String × Json)) (st : Body × Ams),
      noDouble st.1 → noDouble ((L.foldl step st)).1 := by
  intro L
  induction L with
  | nil => exact fun st h => h
  | cons kv rest ih =>
    intro st h
    exact ih (step st kv) (noDouble_step h)

theorem step_snd (st : Body × Ams) (kv : String × Json) :
    (step st kv).2 = st.2 ∨
    (step st kv).2 = (inferDataType kv.2 kv.1 st.2).2 := by
  cases hl : lookupKV st.1 (toCamelCase kv.1) with
  | some fi =>
    by_cases hfi : fi.type = DataType.stringMaxDouble
    · rw [step_of_lookup_guard hl hfi]
      exact Or.inl rfl
    · rw [step_of_lookup_some hl hfi]
      exact Or.inr rfl
  | none =>
    rw [step_of_lookup_none hl]
    exact Or.inr rfl

theorem fold_relation_inv (ck : String) (r : Relation) :
    ∀ (L : List (String × Json)) (st : Body × Ams),
      (∀ kv ∈ L, toCamelCase kv.1 = ck →
        ∀ r2, structuredTrigger kv.2 = some r2 → r2 = r) →
      (∀ m, lookupKV st.2 ck = some m → m.relation = r) →
      ∀ m, lookupKV ((L.foldl step st)).2 ck = some m → m.relation = r := by
  intro L
  induction L with
  | nil => exact fun st _ hinv => hinv
  | cons kv rest ih =>
    intro st hL hinv
    simp only [List.foldl_cons]
    apply ih
    · exact fun kv' h' => hL kv' (List.mem_cons_of_mem _ h')
    · rcases step_snd st kv with hs | hs
      · rw [hs]; exact hinv
      · rw [hs]
        cases htr : structuredTrigger kv.2 with
        | none =>
          rw [inferDataType_ams_of_trigger_none htr]
          exact hinv
        | some r2 =>
          rw [inferDataType_ams_of_trigger_some htr]
          exact registerAssoc_keeps_relation hinv
            (fun hck => hL kv (List.mem_cons_self _ _) hck r2 htr)

theorem collect_lookup_eq_last :
    ∀ (models : List ModelResult) (acc : List (String × ModelResult)) (k : String),
      lookupKV (models.foldl (fun a m => setKV a m.model m) acc) k =
        match lastModelNamed models k with
        | some m => some m
        | none => lookupKV acc k := by
  intro models
  induction models with
  | nil => intro acc k; rfl
  | cons m rest ih =>
    intro acc k
    simp only [List.foldl_cons, lastModelNamed]
    rw [ih]
    cases hr : lastModelNamed rest k with
    | some r0 => rfl
    | none =>
      by_cases hk : m.model = k
      · rw [if_pos hk, ← hk]
        exact lookupKV_setKV_self acc m.model m
      · rw [if_neg hk]
        exact lookupKV_setKV_ne (fun he => hk he.symm)

/-! Claim theorems. -/

/-- Claim C1: the code contradicts its own comment (line 145, the
specialTypes list is meant to protect the MAX string type from being
overwritten) and the spec.  The specialTypes entry is the double-quoted
MAX spelling while inferDataType returns the single-quoted MAX
spelling, two distinct strings, so the protection guard never fires: a
field classified with the MAX string type by a 141-character string in
the first record is downgraded to the plain bounded string type by a
1-character string in the second record. -/
theorem sticky_type_downgraded :
    generateSequelizeModel 1 "user"
        [Json.obj [("bio", Json.str ⟨141, false, false⟩)],
         Json.obj [("bio", Json.str ⟨1, false, false⟩)]] =
      some [{ model := "user", body := [("bio", ⟨DataType.string, "bio"⟩)],
              oneToN := [], oneToOne := [] }] := rfl

/-- Claim C3 (amended): for an array value, the classifier returns the
MAX string tag exactly when the first element is a truthy non-object
(a true boolean, a non-zero number, or a non-empty string); otherwise,
so also for non-empty arrays of falsy scalars such as the number zero
or the empty string, it registers a one-to-many association for the
canonicalized key, creating it if absent and appending every element
to its example batch, and returns the nested tag. -/
theorem scalar_array_truthy_collapse (elems : List Json) (key : String)
    (ams : Ams) :
    (headTruthyNonObject elems = true →
      inferDataType (Json.arr elems) key ams =
        (some DataType.stringMaxSingle, ams)) ∧
    (headTruthyNonObject elems = false →
      inferDataType (Json.arr elems) key ams =
        (some DataType.nested,
          registerAssoc ams (toCamelCase key) Relation.oneToN elems)) := by
  constructor
  · intro h
    simp [inferDataType, h]
  · intro h
    simp [inferDataType, h]

/-- Claim C3, counterexample to the claim as stated: the non-empty
array containing the single number zero has a first element that is not
a structured value, yet the classifier does not return the MAX string
tag; it registers a one-to-many association and returns the nested tag,
because the source tests the truthiness of the first element rather
than its structure. -/
theorem scalar_array_falsy_cex :
    inferDataType (Json.arr [Json.number 0]) "tags" [] =
      (some DataType.nested,
        [("tags", ⟨"tags", Relation.oneToN, [Json.number 0]⟩)]) := rfl

/-- Witness for the amended C3 theorem at a concrete truthy scalar
array. -/
theorem scalar_array_truthy_collapse_witness :
    inferDataType (Json.arr [Json.str ⟨1, false, false⟩]) "tags" [] =
      (some DataType.stringMaxSingle, []) :=
  (scalar_array_truthy_collapse [Json.str ⟨1, false, false⟩] "tags" []).1 rfl

/-- Claim C5: a string value is classified as a date exactly when it
parses as a date and does not also parse as an integer; the integer
check guards strings such as "0012". -/
theorem datetime_iff_guard (s : JsStr) (key : String) (ams : Ams) :
    (inferDataType (Json.str s) key ams).1 = some DataType.date ↔
      (s.parsesAsDate = true ∧ s.parsesAsInt = false) := by
  cases hd : s.parsesAsDate <;> cases hi : s.parsesAsInt <;>
    by_cases hl : 140 < s.length <;>
      simp [inferDataType, hd, hi, hl]

/-- Claim C4 (amended): when the classifier returns null for a value
whose canonical key is already in the body, the previously stored type
is preserved; but when it returns the nested tag for such a field, the
stored type is overwritten by the nested tag (and the field is later
deleted from the flat body), so an earlier scalar classification is
erased by a later nested observation. -/
theorem null_preserves_nested_erases
    (body : Body) (ams : Ams) (key : String) (v : Json) (fi : FieldInfo)
    (hprev : lookupKV body (toCamelCase key) = some fi) :
    ((inferDataType v key ams).1 = none →
      (lookupKV (step (body, ams) (key, v)).1 (toCamelCase key)).map
        (fun f => f.type) = some fi.type) ∧
    ((inferDataType v key ams).1 = some DataType.nested →
      fi.type ≠ DataType.stringMaxDouble →
      (lookupKV (step (body, ams) (key, v)).1 (toCamelCase key)).map
        (fun f => f.type) = some DataType.nested) := by
  constructor
  · intro hn
    by_cases hfi : fi.type = DataType.stringMaxDouble
    · rw [step_of_lookup_guard hprev hfi]
      simp only
      rw [hprev]
      rfl
    · rw [step_of_lookup_some hprev hfi]
      simp only
      rw [lookupKV_setKV_self]
      simp [hn]
  · intro hn hfi
    rw [step_of_lookup_some hprev hfi]
    simp only
    rw [lookupKV_setKV_self]
    simp [hn]

/-- Claim C4, counterexample to the claim as stated: the field a is
classified as an integer by the first record; the second record holds a
nested object under a, the classifier returns the nested (structured)
tag, the stored integer type is overwritten and the field is stripped,
so the final body of the job has no field a at all. -/
theorem nested_erases_scalar_cex :
    (generateSequelizeModel 2 "user"
        [Json.obj [("a", Json.number 1)],
         Json.obj [("a", Json.obj [("x", Json.number 1)])]]).map
      (fun rs => rs.map (fun r2 => (r2.model, r2.body.map (fun kv => kv.1)))) =
      some [("user", []), ("a", ["x"])] := rfl

/-- Witness for the amended C4 theorem: a null observation on a field
previously classified as an integer leaves the stored type intact. -/
theorem null_preserves_nested_erases_witness :
    (lookupKV (step ([("a", ⟨DataType.integer, "a"⟩)], []) ("a", Json.null)).1
        (toCamelCase "a")).map (fun f => f.type) = some DataType.integer :=
  (null_preserves_nested_erases [("a", ⟨DataType.integer, "a"⟩)] [] "a"
    Json.null ⟨DataType.integer, "a"⟩ rfl).1 rfl

/-- Claim C7 (amended): the driver resolves colliding canonical names
silently: the associations object keeps, for every name, exactly the
last model assigned under that name (last write wins, at the position
of the first occurrence); no diagnostic is raised and nothing is
logged, since the source has no reporting path at all. -/
theorem assoc_collision_silent_overwrite (models : List ModelResult)
    (k : String) :
    lookupKV (collectAssociations models) k = lastModelNamed models k := by
  unfold collectAssociations
  rw [collect_lookup_eq_last]
  cases lastModelNamed models k <;> rfl

/-- Claim C7, counterexample to the claim as stated: two models share
the canonical name a with incompatible cardinalities for the same key k
(a one-to-one association versus a one-to-many association); the
assembly keeps the second model and discards the first without any
diagnostic. -/
theorem assoc_collision_cex :
    collectAssociations
      [⟨"a", [], [], [⟨"k", Relation.oneToOne, []⟩]⟩,
       ⟨"a", [], [⟨"k", Relation.oneToN, []⟩], []⟩] =
    [("a", ⟨"a", [], [⟨"k", Relation.oneToN, []⟩], []⟩)] := rfl

/-- Claim C2 (amended): within one decomposition job the cardinality of
an association is fixed by the first structured observation for its
key.  Whenever every structured value observed under a key (in any
record) registers the same cardinality, the association carries that
cardinality; in particular a field whose value is a plain object in
every record that has it yields a one-to-one association, and a field
whose association-registering observations are all arrays yields a
one-to-many association.  A field seen first as a plain object and
later as an array of structured elements keeps the one-to-one
cardinality, so the unconditional array clause of the claim fails. -/
theorem cardinality_first_observation
    (exs : List Json) (entss : List (List (String × Json)))
    (hE : allSome (exs.map jsEntries) = some entss)
    (ck : String) (r : Relation)
    (h : ∀ e ∈ exs, ∀ ents, jsEntries e = some ents → ∀ kv ∈ ents,
      toCamelCase kv.1 = ck → ∀ r2, structuredTrigger kv.2 = some r2 → r2 = r)
    (m : AssocModel)
    (hm : lookupKV (processEntries entss.flatten).2 ck = some m) :
    m.relation = r := by
  apply fold_relation_inv ck r entss.flatten ([], []) _ _ m hm
  · intro kv hkv hck r2 htr
    rcases List.mem_flatten.mp hkv with ⟨ents, hents, hkv2⟩
    have hmem : some ents ∈ exs.map jsEntries := mem_of_allSome hE hents
    rcases List.mem_map.mp hmem with ⟨e, he, hje⟩
    exact h e he ents hje kv hkv2 hck r2 htr
  · intro m0 hm0
    simp [lookupKV] at hm0

/-- Witness for the amended C2 theorem: one record whose field address
holds a plain object produces the one-to-one association. -/
theorem cardinality_first_observation_witness :
    (⟨"address", Relation.oneToOne,
      [Json.obj [("city", Json.str ⟨1, false, false⟩)]]⟩ : AssocModel).relation =
      Relation.oneToOne :=
  cardinality_first_observation
    [Json.obj [("address", Json.obj [("city", Json.str ⟨1, false, false⟩)])]]
    [[("address", Json.obj [("city", Json.str ⟨1, false, false⟩)])]]
    rfl "address" Relation.oneToOne
    (by
      intro e he ents hje kv hkv hck r2 htr
      rcases List.mem_singleton.mp he with rfl
      simp only [jsEntries, Option.some.injEq] at hje
      subst hje
      rcases List.mem_singleton.mp hkv with rfl
      simp only [structuredTrigger, Option.some.injEq] at htr
      exact htr.symm)
    ⟨"address", Relation.oneToOne,
      [Json.obj [("city", Json.str ⟨1, false, false⟩)]]⟩
    rfl

/-- Claim C2, counterexample to the claim as stated: the field a holds
a plain object in the first record and an array of structured elements
in the second; the claim demands a one-to-many association, but the
job keeps the one-to-one cardinality fixed by the first observation
(the array only appends its elements to the existing entry). -/
theorem cardinality_order_dependent_cex :
    ((generateSequelizeModel 3 "user"
        [Json.obj [("a", Json.obj [("x", Json.number 1)])],
         Json.obj [("a", Json.arr [Json.obj [("y", Json.number 2)]])]]).map
      (fun rs => rs.map (fun r2 =>
        (r2.model, r2.oneToN.map (fun m => m.name),
         r2.oneToOne.map (fun m => m.name))))) =
      some [("user", [], ["a"]), ("a", [], [])] := rfl

/-- Claim C6: after a decomposition job completes, no field of the
returned body carries the nested tag, in any model produced at any
recursion depth; every nested field is removed by the final filter. -/
theorem no_nested_after_strip :
    ∀ (fuel : Nat) (name : String) (exs : List Json) (rs : List ModelResult),
      generateSequelizeModel fuel name exs = some rs →
      ∀ r ∈ rs, ∀ kv ∈ r.body, kv.2.type ≠ DataType.nested := by
  intro fuel
  induction fuel with
  | zero =>
    intro name exs rs h
    simp [generateSequelizeModel] at h
  | succ n ih =>
    intro name exs rs h
    simp only [generateSequelizeModel] at h
    split at h
    · simp at h
    · split at h
      · simp at h
      · simp only [Option.some.injEq] at h
        subst h
        rename_i entss hE children hC
        intro r hr kv hkv
        rcases List.mem_cons.mp hr with h1 | h1
        · subst h1
          simp only at hkv
          exact of_decide_eq_true (List.mem_filter.mp hkv).2
        · rcases List.mem_flatten.mp h1 with ⟨cl, hcl, hrcl⟩
          have hmem := mem_of_allSome hC hcl
          rcases List.mem_map.mp hmem with ⟨km, _, hgen⟩
          exact ih (toCamelCase km.1) km.2.examples cl hgen r hrcl kv hkv

/-- Witness for C6 at a concrete input with one nested field. -/
theorem no_nested_after_strip_witness :
    (("id", (⟨DataType.integer, "id"⟩ : FieldInfo)) : String × FieldInfo).2.type ≠
      DataType.nested :=
  no_nested_after_strip 2 "user"
    [Json.obj [("id", Json.number 1),
       ("address", Json.obj [("city", Json.str ⟨1, false, false⟩)])]]
    [⟨"user", [("id", ⟨DataType.integer, "id"⟩)], [],
       [⟨"address", Relation.oneToOne,
         [Json.obj [("city", Json.str ⟨1, false, false⟩)]]⟩]⟩,
     ⟨"address", [("city", ⟨DataType.string, "city"⟩)], [], []⟩]
    rfl
    ⟨"user", [("id", ⟨DataType.integer, "id"⟩)], [],
      [⟨"address", Relation.oneToOne,
        [Json.obj [("city", Json.str ⟨1, false, false⟩)]]⟩]⟩
    (List.Mem.head _)
    ("id", ⟨DataType.integer, "id"⟩)
    (List.Mem.head _)

/-! Presence of observed keys in the body. -/

theorem lookupKV_isSome_setKV {α : Type} (l : List (String × α))
    (k k' : String) (v : α) (h : (lookupKV l k').isSome = true) :
    (lookupKV (setKV l k v) k').isSome = true := by
  by_cases hk : k' = k
  · subst hk
    rw [lookupKV_setKV_self]
    rfl
  · rw [lookupKV_setKV_ne hk]
    exact h

theorem step_preserves_present {st : Body × Ams} {kv : String × Json}
    {k : String} (h : (lookupKV st.1 k).isSome = true) :
    (lookupKV (step st kv).1 k).isSome = true := by
  cases hl : lookupKV st.1 (toCamelCase kv.1) with
  | some fi =>
    by_cases hfi : fi.type = DataType.stringMaxDouble
    · rw [step_of_lookup_guard hl hfi]
      exact h
    · rw [step_of_lookup_some hl hfi]
      exact lookupKV_isSome_setKV _ _ _ _ h
  | none =>
    rw [step_of_lookup_none hl]
    exact lookupKV_isSome_setKV _ _ _ _ h

theorem step_makes_present (st : Body × Ams) (kv : String × Json) :
    (lookupKV (step st kv).1 (toCamelCase kv.1)).isSome = true := by
  cases hl : lookupKV st.1 (toCamelCase kv.1) with
  | some fi =>
    by_cases hfi : fi.type = DataType.stringMaxDouble
    · rw [step_of_lookup_guard hl hfi]
      rw [hl]
      rfl
    · rw [step_of_lookup_some hl hfi]
      simp only
      rw [lookupKV_setKV_self]
      rfl
  | none =>
    rw [step_of_lookup_none hl]
    simp only
    rw [lookupKV_setKV_self]
    rfl

theorem present_after_fold :
    ∀ (L : List (String × Json)) (st : Body × Ams) (k : String),
      ((lookupKV st.1 k).isSome = true ∨ ∃ kv ∈ L, toCamelCase kv.1 = k) →
      (lookupKV ((L.foldl step st)).1 k).isSome = true := by
  intro L
  induction L with
  | nil =>
    intro st k h
    rcases h with h | ⟨kv, hkv, _⟩
    · exact h
    · cases hkv
  | cons kv rest ih =>
    intro st k h
    simp only [List.foldl_cons]
    apply ih
    rcases h with h | ⟨kv', hkv', hck⟩
    · exact Or.inl (step_preserves_present h)
    · rcases List.mem_cons.mp hkv' with h1 | h1
      · subst h1
        rw [← hck]
        exact Or.inl (step_makes_present st kv')
      · exact Or.inr ⟨kv', h1, hck⟩

/-- Claim C9: for records that are objects, traversal is defined
(Object.entries does not throw) and classification together with
merging gives every observed key a defined body entry (carrying a type
tag or the placeholder), for any values including null and undefined;
the classifier and the merge step are total functions of the
embedding. -/
theorem classification_merging_total (exs : List Json)
    (h : ∀ e ∈ exs, ∃ fields, e = Json.obj fields) :
    ∃ entss, allSome (exs.map jsEntries) = some entss ∧
      ∀ ents ∈ entss, ∀ kv ∈ ents,
        (lookupKV (processEntries entss.flatten).1 (toCamelCase kv.1)).isSome =
          true := by
  have hsome : ∀ o ∈ exs.map jsEntries, o.isSome = true := by
    intro o ho
    rcases List.mem_map.mp ho with ⟨e, he, rfl⟩
    rcases h e he with ⟨fields, rfl⟩
    rfl
  obtain ⟨entss, hE⟩ := allSome_isSome hsome
  refine ⟨entss, hE, ?_⟩
  intro ents hents kv hkv
  unfold processEntries
  apply present_after_fold
  exact Or.inr ⟨kv, List.mem_flatten.mpr ⟨ents, hents, hkv⟩, rfl⟩

/-- Witness for C9 at a record holding a null and an undefined value. -/
theorem classification_merging_total_witness :
    ∃ entss,
      allSome ([Json.obj [("a", Json.null), ("b", Json.undef)]].map jsEntries) =
        some entss ∧
      ∀ ents ∈ entss, ∀ kv ∈ ents,
        (lookupKV (processEntries entss.flatten).1 (toCamelCase kv.1)).isSome =
          true :=
  classification_merging_total [Json.obj [("a", Json.null), ("b", Json.undef)]]
    (by
      intro e he
      rcases List.mem_singleton.mp he with rfl
      exact ⟨_, rfl⟩)

/-! Uniqueness of body keys and the filtered lookup. -/

theorem map_fst_updateKV {α : Type} (l : List (String × α)) (k : String)
    (v : α) : (updateKV l k v).map Prod.fst = l.map Prod.fst := by
  induction l with
  | nil => rfl
  | cons kv rest ih =>
    obtain ⟨k0, v0⟩ := kv
    simp only [updateKV, List.map_cons] at ih ⊢
    by_cases hk : k0 = k
    · subst hk
      rw [if_pos rfl]
      simp only [List.map_cons]
      rw [ih]
    · rw [if_neg (by simpa using hk)]
      simp only [List.map_cons]
      rw [ih]

theorem nodup_keys_setKV {α : Type} {l : List (String × α)} {k : String}
    {v : α} (h : (l.map Prod.fst).Nodup) :
    ((setKV l k v).map Prod.fst).Nodup := by
  unfold setKV
  cases hl : lookupKV l k with
  | some m =>
    rw [map_fst_updateKV]
    exact h
  | none =>
    rw [List.map_append]
    rw [List.nodup_append]
    refine ⟨h, List.nodup_singleton _, ?_⟩
    intro a ha hb
    simp only [List.map_cons, List.map_nil, List.mem_singleton] at hb
    subst hb
    exact not_mem_of_lookupKV_none hl ha

theorem nodup_keys_step {st : Body × Ams} {kv : String × Json}
    (h : (st.1.map Prod.fst).Nodup) :
    ((step st kv).1.map Prod.fst).Nodup := by
  cases hl : lookupKV st.1 (toCamelCase kv.1) with
  | some fi =>
    by_cases hfi : fi.type = DataType.stringMaxDouble
    · rw [step_of_lookup_guard hl hfi]
      exact h
    · rw [step_of_lookup_some hl hfi]
      exact nodup_keys_setKV h
  | none =>
    rw [step_of_lookup_none hl]
    exact nodup_keys_setKV h

theorem nodup_keys_foldl :
    ∀ (L : List (String × Json)) (st : Body × Ams),
      (st.1.map Prod.fst).Nodup → (((L.foldl step st)).1.map Prod.fst).Nodup := by
  intro L
  induction L with
  | nil => exact fun st h => h
  | cons kv rest ih =>
    intro st h
    exact ih (step st kv) (nodup_keys_step h)

theorem lookupKV_filter_of_nodup {α : Type} {l : List (String × α)}
    {p : String × α → Bool} {k : String} {v : α}
    (hnd : (l.map Prod.fst).Nodup) (h : lookupKV (l.filter p) k = some v) :
    lookupKV l k = some v := by
  induction l with
  | nil => simp [lookupKV] at h
  | cons kv rest ih =>
    obtain ⟨k0, v0⟩ := kv
    simp only [List.map_cons, List.nodup_cons] at hnd
    by_cases hk : k0 = k
    · subst hk
      simp only [lookupKV, if_pos rfl]
      cases hp : p (k0, v0) with
      | true =>
        rw [List.filter_cons_of_pos hp] at h
        simp only [lookupKV, if_pos rfl] at h
        exact h
      | false =>
        rw [List.filter_cons_of_neg (by simp [hp])] at h
        have hn : lookupKV (rest.filter p) k0 = none := by
          apply lookupKV_eq_none_of_not_mem
          intro hmem
          apply hnd.1
          rcases List.mem_map.mp hmem with ⟨a, ha, hfa⟩
          exact List.mem_map.mpr ⟨a, (List.mem_filter.mp ha).1, hfa⟩
        rw [hn] at h
        cases h
    · simp only [lookupKV, if_neg hk]
      apply ih hnd.2
      cases hp : p (k0, v0) with
      | true =>
        rw [List.filter_cons_of_pos hp] at h
        simp only [lookupKV, if_neg hk] at h
        exact h
      | false =>
        rw [List.filter_cons_of_neg (by simp [hp])] at h
        exact h

theorem fold_field_spelling (ck : String) :
    ∀ (L : List (String × Json)) (st : Body × Ams), noDouble st.1 →
      (lookupKV ((L.foldl step st)).1 ck).map (fun f => f.field) =
        match lastFieldSpelling L ck with
        | some s => some s
        | none => (lookupKV st.1 ck).map (fun f => f.field) := by
  intro L
  induction L with
  | nil => intro st _; rfl
  | cons kv rest ih =>
    intro st hnd
    simp only [List.foldl_cons, lastFieldSpelling]
    rw [ih (step st kv) (noDouble_step hnd)]
    cases hr : lastFieldSpelling rest ck with
    | some s => rfl
    | none =>
      by_cases hck : toCamelCase kv.1 = ck
      · rw [if_pos hck]
        cases hl : lookupKV st.1 (toCamelCase kv.1) with
        | some fi =>
          have hfi : fi.type ≠ DataType.stringMaxDouble :=
            hnd _ (mem_of_lookupKV hl)
          rw [step_of_lookup_some hl hfi]
          simp only
          rw [← hck, lookupKV_setKV_self]
          rfl
        | none =>
          rw [step_of_lookup_none hl]
          simp only
          rw [← hck, lookupKV_setKV_self]
          rfl
      · rw [if_neg hck]
        cases hl : lookupKV st.1 (toCamelCase kv.1) with
        | some fi =>
          have hfi : fi.type ≠ DataType.stringMaxDouble :=
            hnd _ (mem_of_lookupKV hl)
          rw [step_of_lookup_some hl hfi]
          simp only
          rw [lookupKV_setKV_ne (fun he => hck he.symm)]
        | none =>
          rw [step_of_lookup_none hl]
          simp only
          rw [lookupKV_setKV_ne (fun he => hck he.symm)]

/-- Claim C10: every field retained in the final stripped body stores,
as its field property, the raw spelling of the last entry (across all
records, in order) whose key canonicalizes to that field name; a later
record overwrites the spelling of an earlier record whose raw key
canonicalizes to the same camel-cased name, and the guard that could
have prevented the overwrite never fires because no stored type ever
equals the double-quoted specialTypes entry. -/
theorem field_spelling_last_wins
    (L : List (String × Json)) (ck : String) (fi : FieldInfo)
    (h : lookupKV ((processEntries L).1.filter
        (fun kv => decide (kv.2.type ≠ DataType.nested))) ck = some fi) :
    some fi.field = lastFieldSpelling L ck := by
  unfold processEntries at h
  have hnd : (((L.foldl step (([], []) : Body × Ams))).1.map Prod.fst).Nodup :=
    nodup_keys_foldl L ([], []) (by simp)
  have h2 : lookupKV ((L.foldl step (([], []) : Body × Ams))).1 ck = some fi :=
    lookupKV_filter_of_nodup hnd h
  have h3 := fold_field_spelling ck L ([], []) (by intro kv hkv; cases hkv)
  rw [h2] at h3
  cases hls : lastFieldSpelling L ck with
  | some s =>
    rw [hls] at h3
    exact h3
  | none =>
    rw [hls] at h3
    simp [lookupKV] at h3

/-- Witness for C10: the raw keys user_name and userName canonicalize
to the same field name; the final stored spelling is the one from the
later record. -/
theorem field_spelling_last_wins_witness :
    some (⟨DataType.boolean, "userName"⟩ : FieldInfo).field =
      lastFieldSpelling
        [("user_name", Json.str ⟨1, false, false⟩),
         ("userName", Json.boolean true)] "userName" :=
  field_spelling_last_wins
    [("user_name", Json.str ⟨1, false, false⟩),
     ("userName", Json.boolean true)]
    "userName" ⟨DataType.boolean, "userName"⟩ rfl

/-! Depth bounds for the recursion of the model generator. -/

theorem depthJ_le_depthList :
    ∀ {l : List Json} {e : Json}, e ∈ l → depthJ e ≤ depthList l := by
  intro l
  induction l with
  | nil => intro e he; cases he
  | cons x xs ih =>
    intro e he
    rcases List.mem_cons.mp he with h1 | h1
    · subst h1
      simp only [depthList]
      exact Nat.le_max_left _ _
    · simp only [depthList]
      exact le_trans (ih h1) (Nat.le_max_right _ _)

theorem depthJ_le_depthPairs :
    ∀ {fields : List (String × Json)} {kv : String × Json},
      kv ∈ fields → depthJ kv.2 ≤ depthPairs fields := by
  intro fields
  induction fields with
  | nil => intro kv hkv; cases hkv
  | cons x xs ih =>
    intro kv hkv
    rcases List.mem_cons.mp hkv with h1 | h1
    · subst h1
      simp only [depthPairs]
      exact Nat.le_max_left _ _
    · simp only [depthPairs]
      exact le_trans (ih h1) (Nat.le_max_right _ _)

theorem depthList_lt_of {D : Nat} :
    ∀ {l : List Json}, 0 < D → (∀ e ∈ l, depthJ e < D) → depthList l < D := by
  intro l
  induction l with
  | nil =>
    intro hD _
    simpa [depthList] using hD
  | cons x xs ih =>
    intro hD h
    simp only [depthList]
    exact Nat.max_lt.mpr
      ⟨h x (List.mem_cons_self _ _), ih hD (fun e he => h e (List.mem_cons_of_mem _ he))⟩

theorem jsEntries_value_depth {e : Json} {ents : List (String × Json)}
    (h : jsEntries e = some ents) :
    ∀ kv ∈ ents, depthJ kv.2 = 0 ∨ depthJ kv.2 < depthJ e := by
  intro kv hkv
  cases e with
  | null => cases h
  | undef => cases h
  | boolean b =>
    obtain rfl : ([] : List (String × Json)) = ents := by injection h
    cases hkv
  | number q =>
    obtain rfl : ([] : List (String × Json)) = ents := by injection h
    cases hkv
  | str s =>
    obtain rfl : enumEntries 0 (List.replicate s.length (Json.str ⟨1, false, false⟩)) = ents := by
      injection h
    left
    have := mem_enumEntries hkv
    rw [List.eq_of_mem_replicate this]
    rfl
  | arr elems =>
    obtain rfl : enumEntries 0 elems = ents := by injection h
    right
    have h1 := depthJ_le_depthList (mem_enumEntries hkv)
    have h2 : depthJ (Json.arr elems) = 1 + depthList elems := by simp [depthJ]
    omega
  | obj fields =>
    obtain rfl : fields = ents := by injection h
    right
    have h1 := depthJ_le_depthPairs hkv
    have h2 : depthJ (Json.obj fields) = 1 + depthPairs fields := by simp [depthJ]
    omega

theorem structuredTrigger_depth_pos {v : Json} {r : Relation}
    (h : structuredTrigger v = some r) : 1 ≤ depthJ v := by
  cases v with
  | arr elems =>
    have h2 : depthJ (Json.arr elems) = 1 + depthList elems := by simp [depthJ]
    omega
  | obj fields =>
    have h2 : depthJ (Json.obj fields) = 1 + depthPairs fields := by simp [depthJ]
    omega
  | null => cases h
  | undef => cases h
  | boolean b => cases h
  | number q => cases h
  | str s => cases h

theorem pushedExamples_depth_le {v : Json} {ex : Json}
    (h : ex ∈ pushedExamples v) : depthJ ex ≤ depthJ v := by
  cases v with
  | arr elems =>
    simp only [pushedExamples] at h
    calc depthJ ex ≤ depthList elems := depthJ_le_depthList h
    _ ≤ 1 + depthList elems := by omega
    _ = depthJ (Json.arr elems) := by simp [depthJ]
  | obj fields =>
    simp only [pushedExamples, List.mem_singleton] at h
    subst h
    exact le_refl _
  | null => cases h
  | undef => cases h
  | boolean b => cases h
  | number q => cases h
  | str s => cases h

/-- Every example accumulated for a child job stays strictly below the
depth bound, and the bound is positive as soon as any association has
been registered. -/
def amsDepthBound (D : Nat) (ams : Ams) : Prop :=
  ∀ km ∈ ams, 0 < D ∧ ∀ ex ∈ km.2.examples, depthJ ex < D

theorem registerAssoc_depth {D : Nat} {ams : Ams} {ck : String}
    {rel : Relation} {newExs : List Json} (h : amsDepthBound D ams)
    (hD : 0 < D) (hnew : ∀ ex ∈ newExs, depthJ ex < D) :
    amsDepthBound D (registerAssoc ams ck rel newExs) := by
  intro km hkm
  rcases mem_registerAssoc hkm with h1 | ⟨m, hm, rfl⟩ | ⟨hm, rfl⟩
  · exact h km h1
  · refine ⟨hD, ?_⟩
    intro ex hex
    simp only at hex
    rcases List.mem_append.mp hex with h2 | h2
    · exact (h _ (mem_of_lookupKV hm)).2 ex h2
    · exact hnew ex h2
  · exact ⟨hD, hnew⟩

theorem step_amsDepth {D : Nat} {st : Body × Ams} {kv : String × Json}
    (hkv : depthJ kv.2 = 0 ∨ depthJ kv.2 < D)
    (h : amsDepthBound D st.2) : amsDepthBound D (step st kv).2 := by
  rcases step_snd st kv with hs | hs
  · rw [hs]; exact h
  · rw [hs]
    cases htr : structuredTrigger kv.2 with
    | none =>
      rw [inferDataType_ams_of_trigger_none htr]
      exact h
    | some r2 =>
      rw [inferDataType_ams_of_trigger_some htr]
      have h1 : 1 ≤ depthJ kv.2 := structuredTrigger_depth_pos htr
      have hlt : depthJ kv.2 < D := by omega
      have hD : 0 < D := by omega
      apply registerAssoc_depth h hD
      intro ex hex
      exact lt_of_le_of_lt (pushedExamples_depth_le hex) hlt

theorem fold_amsDepth {D : Nat} :
    ∀ (L : List (String × Json)) (st : Body × Ams),
      (∀ kv ∈ L, depthJ kv.2 = 0 ∨ depthJ kv.2 < D) →
      amsDepthBound D st.2 → amsDepthBound D ((L.foldl step st)).2 := by
  intro L
  induction L with
  | nil => exact fun st _ h => h
  | cons kv rest ih =>
    intro st hL h
    simp only [List.foldl_cons]
    exact ih (step st kv)
      (fun kv' h' => hL kv' (List.mem_cons_of_mem _ h'))
      (step_amsDepth (hL kv (List.mem_cons_self _ _)) h)

theorem flatten_entry_depth {exs : List Json}
    {entss : List (List (String × Json))}
    (hE : allSome (exs.map jsEntries) = some entss) :
    ∀ kv ∈ entss.flatten, depthJ kv.2 = 0 ∨ depthJ kv.2 < depthList exs := by
  intro kv hkv
  rcases List.mem_flatten.mp hkv with ⟨ents, hents, hkv2⟩
  have hmem := mem_of_allSome hE hents
  rcases List.mem_map.mp hmem with ⟨e, he, hje⟩
  rcases jsEntries_value_depth hje kv hkv2 with h1 | h1
  · exact Or.inl h1
  · exact Or.inr (lt_of_lt_of_le h1 (depthJ_le_depthList he))

theorem genModel_succ_of_none (fuel : Nat) {name : String} {exs : List Json}
    (hE : allSome (exs.map jsEntries) = none) :
    generateSequelizeModel (fuel + 1) name exs = none := by
  simp only [generateSequelizeModel]
  rw [hE]

theorem genModel_succ_of_entss (fuel : Nat) {name : String} {exs : List Json}
    {entss : List (List (String × Json))}
    (hE : allSome (exs.map jsEntries) = some entss) :
    generateSequelizeModel (fuel + 1) name exs =
      match allSome ((processEntries entss.flatten).2.map (fun km =>
          generateSequelizeModel fuel (toCamelCase km.1) km.2.examples)) with
      | none => none
      | some children =>
        some ({ model := toCamelCase name,
                body := (processEntries entss.flatten).1.filter
                  (fun kv => decide (kv.2.type ≠ DataType.nested)),
                oneToN := ((processEntries entss.flatten).2.map Prod.snd).filter
                  (fun m => decide (m.relation = Relation.oneToN)),
                oneToOne := ((processEntries entss.flatten).2.map Prod.snd).filter
                  (fun m => decide (m.relation = Relation.oneToOne)) }
              :: children.flatten) := by
  simp only [generateSequelizeModel]
  rw [hE]

/-- Claim C8: decomposition terminates on every finite example batch,
and the recursion bottoms out at the nesting depth of the input: any
fuel strictly above the depth of the batch yields the same result as
nesting depth plus one, so no cycle or depth guard is needed for
finite tree-shaped inputs. -/
theorem generateSequelizeModel_stabilizes :
    ∀ (n : Nat) (name : String) (exs : List Json), depthList exs < n →
      generateSequelizeModel n name exs =
        generateSequelizeModel (depthList exs + 1) name exs := by
  intro n
  induction n using Nat.strong_induction_on with
  | _ n IH =>
    intro name exs h
    cases n with
    | zero => omega
    | succ n' =>
      cases hE : allSome (exs.map jsEntries) with
      | none =>
        rw [genModel_succ_of_none n' hE,
          genModel_succ_of_none (depthList exs) hE]
      | some entss =>
        rw [genModel_succ_of_entss n' hE,
          genModel_succ_of_entss (depthList exs) hE]
        have hbound : amsDepthBound (depthList exs)
            (processEntries entss.flatten).2 := by
          apply fold_amsDepth entss.flatten ([], []) (flatten_entry_depth hE)
          intro km hkm
          cases hkm
        have hmap : ((processEntries entss.flatten).2.map (fun km =>
            generateSequelizeModel n' (toCamelCase km.1) km.2.examples)) =
          ((processEntries entss.flatten).2.map (fun km =>
            generateSequelizeModel (depthList exs) (toCamelCase km.1)
              km.2.examples)) := by
          apply List.map_congr_left
          intro km hkm
          obtain ⟨hD, hex⟩ := hbound km hkm
          have hdl : depthList km.2.examples < depthList exs :=
            depthList_lt_of hD hex
          have e1 := IH n' (by omega) (toCamelCase km.1) km.2.examples (by omega)
          have e2 := IH (depthList exs) (by omega) (toCamelCase km.1)
            km.2.examples hdl
          rw [e1, e2]
        rw [hmap]

/-- Witness for C8: at a batch of nesting depth two, fuel nine and
fuel depth-plus-one agree. -/
theorem generateSequelizeModel_stabilizes_witness :
    generateSequelizeModel 9 "user"
        [Json.obj [("address", Json.obj [("city", Json.str ⟨1, false, false⟩)])]] =
      generateSequelizeModel
        (depthList [Json.obj [("address",
          Json.obj [("city", Json.str ⟨1, false, false⟩)])]] + 1)
        "user"
        [Json.obj [("address", Json.obj [("city", Json.str ⟨1, false, false⟩)])]] :=
  generateSequelizeModel_stabilizes 9 "user"
    [Json.obj [("address", Json.obj [("city", Json.str ⟨1, false, false⟩)])]]
    (by norm_num [depthList, depthJ, depthPairs])
